import Mathlib

/-!
A shallow embedding of the header-only C++ bit-manipulation library
`bit_manip.h` (namespace `bit`).  Fixed-width unsigned integral values of
bit width `W` are modelled as natural numbers below `2 ^ W`; every C++
arithmetic step that truncates to the value's type is made explicit with
`% 2 ^ W`.  Byte buffers are modelled as lists of byte values, and the
platform's native byte order is little-endian (the library's CI target).
-/

namespace BitManip

/-- The mask `((T)1 << count) - 1) << begin` as computed in the value's
unsigned `W`-bit type: truncated to the low `W` bits. -/
def rangeMask (W b count : Nat) : Nat :=
  (((1 <<< count) - 1) <<< b) % 2 ^ W

/-- `bit::GetBits(val, begin, count)` for a `W`-bit unsigned value. -/
def GetBits (W val b count : Nat) : Nat :=
  if W ≤ b then 0
  else if count < W then (val &&& rangeMask W b count) >>> b
  else val

/-- `bit::ClearBits(val, begin, count)` (contiguous-range overload) for a
`W`-bit unsigned value; `val &= ~mask` is `val &&& (ones ^^^ mask)` on the
low `W` bits. -/
def ClearBits (W val b count : Nat) : Nat :=
  if W ≤ b then val
  else if count < W then val &&& ((2 ^ W - 1) ^^^ rangeMask W b count)
  else 0

/-- `bit::SetBits(val, bits, begin, count)` for a `W`-bit unsigned value;
the cast of `bits` to the value's type is `bits % 2 ^ W`, and
`(~(T)0) << begin` truncated to `W` bits is `((2 ^ W - 1) <<< b) % 2 ^ W`. -/
def SetBits (W val bits b count : Nat) : Nat :=
  if W ≤ b then val
  else if count < W ∧ b + count ≤ W then
    ClearBits W val b count ||| (((bits % 2 ^ W) <<< b) &&& rangeMask W b count)
  else
    ClearBits W val b (W - b) |||
      (((bits % 2 ^ W) <<< b) &&& (((2 ^ W - 1) <<< b) % 2 ^ W))

/-- `bit::SetBits` with its defaulted `count` argument: the default equals
`sizeof(Bits) * CHAR_BIT`, the bit width `WB` of the `bits` argument's type. -/
def SetBitsDefault (W WB val bits b : Nat) : Nat :=
  SetBits W val bits b WB

/-- `bit::FillBits(val, begin, count)`: `SetBits` with `(T)(-1)`, whose
`W`-bit unsigned value is `2 ^ W - 1`. -/
def FillBits (W val b count : Nat) : Nat :=
  SetBits W val (2 ^ W - 1) b count

/-- `bit::IsBitSet(val, idx)` for a `W`-bit unsigned value. -/
def IsBitSet (W val idx : Nat) : Bool :=
  if idx < W then (val &&& (1 <<< idx)) != 0 else false

/-- `bit::SetBit(val, idx)` for a `W`-bit unsigned value. -/
def SetBit (W val idx : Nat) : Nat :=
  if idx < W then val ||| (1 <<< idx) else val

/-- `bit::ClearBit(val, idx)` for a `W`-bit unsigned value;
`val &= ~(1 << idx)` on the low `W` bits. -/
def ClearBit (W val idx : Nat) : Nat :=
  if idx < W then val &&& ((2 ^ W - 1) ^^^ (1 <<< idx)) else val

/-- `bit::CombineBits<Ret, Bits>(high, low)`: `(Ret(high) << WB) + low`,
computed in the `WR`-bit unsigned result type (`WR = 8 * sizeof(Ret)`,
`WB = 8 * sizeof(Bits)`). -/
def CombineBits (WR WB high low : Nat) : Nat :=
  ((high <<< WB) + low) % 2 ^ WR

/-- `bit::CombineBytes(high, low)`: `CombineBits<uint16>` on bytes. -/
def CombineBytes (high low : Nat) : Nat :=
  CombineBits 16 8 high low

/-- `bit::CombineWords(high, low)`: `CombineBits<uint32>` on words. -/
def CombineWords (high low : Nat) : Nat :=
  CombineBits 32 16 high low

/-- `bit::CombineDwords(high, low)`: `CombineBits<uint64>` on double words. -/
def CombineDwords (high low : Nat) : Nat :=
  CombineBits 64 32 high low

/-- The native (little-endian) byte representation of the low `n` bytes of
an integer value, as produced by `std::bit_cast` to a byte array on the
library's little-endian target: byte `i` is `(val >> 8 i) mod 256`. -/
def leBytes (n val : Nat) : List Nat :=
  (List.range n).map fun i => (val >>> (8 * i)) % 256

/-- The integer value denoted by a little-endian byte list (the inverse
reading of `std::bit_cast` from a byte array). -/
def leVal (rep : List Nat) : Nat :=
  rep.foldr (fun byte acc => byte + 256 * acc) 0

/-- `std::ranges::copy(src, dst.begin())` for `src.length ≤ dst.length`:
overwrites the first `src.length` elements of `dst` and keeps the rest. -/
def copyInto (dst src : List Nat) : List Nat :=
  src ++ dst.drop src.length

/-- `bit::WriteBytes(from, to, endian)`.  The value `from` is represented by
its native byte representation `rep` (length `sizeof(T)`); `swapped` is
`endian != std::endian::native`.  Returns the updated buffer and the
boolean result. -/
def WriteBytes (rep dst : List Nat) (swapped : Bool) : List Nat × Bool :=
  if 1 < rep.length then
    let n := rep.length
    let size := min n dst.length
    let src := if swapped then rep.reverse.drop (n - size) else rep.take size
    (copyInto dst src, decide (n ≤ dst.length))
  else
    match dst with
    | [] => (dst, false)
    | _ :: rest => (rep.headD 0 :: rest, true)

/-- `bit::ReadBytes(from, to, endian)`.  The output value `to` is
represented by its byte representation: `oldRep` (length `sizeof(T)`) is its
representation before the call, and the first component of the result is its
representation after the call. -/
def ReadBytes (oldRep src : List Nat) (swapped : Bool) : List Nat × Bool :=
  if 1 < oldRep.length then
    let n := oldRep.length
    let size := min n src.length
    let taken := src.take size
    let rep := if swapped then (List.replicate (n - size) 0 ++ taken).reverse
               else taken ++ List.replicate (n - size) 0
    (rep, decide (n ≤ src.length))
  else
    match src with
    | [] => (oldRep, false)
    | byte :: _ => ([byte], true)

/-! ### Bit-level helper lemmas -/

lemma testBit_false_of_ge {val W i : Nat} (hval : val < 2 ^ W) (hi : W ≤ i) :
    val.testBit i = false :=
  Nat.testBit_lt_two_pow
    (lt_of_lt_of_le hval (Nat.pow_le_pow_right (by norm_num) hi))

lemma rangeMask_testBit (W b c i : Nat) :
    (rangeMask W b c).testBit i =
      (decide (b ≤ i) && decide (i < b + c) && decide (i < W)) := by
  simp only [rangeMask, Nat.one_shiftLeft, Nat.testBit_mod_two_pow,
    Nat.testBit_shiftLeft, Nat.testBit_two_pow_sub_one, ge_iff_le]
  by_cases h1 : b ≤ i <;> by_cases h2 : i < W <;> by_cases h3 : i < b + c <;>
    simp [h1, h2, h3] <;> omega

lemma onesMask_testBit (W b i : Nat) :
    ((((2 ^ W - 1) <<< b) % 2 ^ W)).testBit i =
      (decide (b ≤ i) && decide (i < W)) := by
  simp only [Nat.testBit_mod_two_pow, Nat.testBit_shiftLeft,
    Nat.testBit_two_pow_sub_one, ge_iff_le]
  by_cases h1 : b ≤ i <;> by_cases h2 : i < W <;> simp [h1, h2] <;> omega

lemma getBits_of_begin_ge {W b : Nat} (val c : Nat) (h : W ≤ b) :
    GetBits W val b c = 0 := by
  simp [GetBits, h]

lemma getBits_of_count_ge {W b c : Nat} (val : Nat) (hb : b < W) (hc : W ≤ c) :
    GetBits W val b c = val := by
  rw [GetBits, if_neg (Nat.not_le.2 hb), if_neg (Nat.not_lt.2 hc)]

lemma getBits_eq_mod {W val b c : Nat} (hval : val < 2 ^ W) (hb : b < W)
    (hc : c < W) : GetBits W val b c = (val >>> b) % 2 ^ c := by
  rw [GetBits, if_neg (Nat.not_le.2 hb), if_pos hc]
  apply Nat.eq_of_testBit_eq
  intro i
  simp only [Nat.testBit_shiftRight, Nat.testBit_and, Nat.testBit_mod_two_pow,
    rangeMask_testBit]
  rcases Nat.lt_or_ge (b + i) W with h1 | h1
  · by_cases h2 : i < c <;> by_cases h3 : val.testBit (b + i) <;>
      simp [h2, h3] <;> omega
  · simp [testBit_false_of_ge hval h1]

lemma getBits_count_zero (W val b : Nat) : GetBits W val b 0 = 0 := by
  by_cases h : W ≤ b
  · simp [GetBits, h]
  · rcases Nat.eq_zero_or_pos W with hW | hW
    · omega
    · rw [GetBits, if_neg h, if_pos hW]
      have : rangeMask W b 0 = 0 := by simp [rangeMask]
      simp [this]

/-! ### Claim C1 -/

/-- C1: for a `W`-bit integral value, `GetBits(value, begin, count)` returns
`0` whenever `begin ≥ W`; otherwise, if `count ≥ W` it returns `value`
unchanged; otherwise it returns the `count` bits of `value` starting at bit
`begin`, right-aligned at bit `0` (namely `(value >> begin) mod 2 ^ count`,
so `count = 0` yields `0`, and `GetBits(value, 0, W) = value` follows from
the `count ≥ W` rule). -/
theorem C1_getBits_spec (W val b c : Nat) (hW : 0 < W) (hval : val < 2 ^ W) :
    (W ≤ b → GetBits W val b c = 0) ∧
    (b < W → W ≤ c → GetBits W val b c = val) ∧
    (b < W → c < W → GetBits W val b c = (val >>> b) % 2 ^ c) ∧
    GetBits W val b 0 = 0 ∧
    GetBits W val 0 W = val := by
  refine ⟨fun h => getBits_of_begin_ge val c h,
    fun hb hc => getBits_of_count_ge val hb hc,
    fun hb hc => getBits_eq_mod hval hb hc,
    getBits_count_zero W val b,
    getBits_of_count_ge val hW le_rfl⟩

/-- Witness for C1 at `W = 32`, `value = 0x12345678`, `begin = 8`,
`count = 16`. -/
theorem C1_getBits_spec_witness :
    ((0 : Nat) < 32 ∧ (0x12345678 : Nat) < 2 ^ 32 ∧ (8 : Nat) < 32 ∧
      (16 : Nat) < 32) ∧
    GetBits 32 0x12345678 8 16 = (0x12345678 >>> 8) % 2 ^ 16 :=
  ⟨⟨by decide, by decide, by decide, by decide⟩,
    (C1_getBits_spec 32 0x12345678 8 16 (by decide) (by decide)).2.2.1
      (by decide) (by decide)⟩

lemma clearBits_of_begin_ge {W b : Nat} (val c : Nat) (h : W ≤ b) :
    ClearBits W val b c = val := by
  simp [ClearBits, h]

lemma clearBits_of_count_ge {W b c : Nat} (val : Nat) (hb : b < W) (hc : W ≤ c) :
    ClearBits W val b c = 0 := by
  rw [ClearBits, if_neg (Nat.not_le.2 hb), if_neg (Nat.not_lt.2 hc)]

lemma clearBits_testBit {W val b c : Nat} (hval : val < 2 ^ W) (hc : c < W)
    (i : Nat) :
    (ClearBits W val b c).testBit i =
      (val.testBit i && !(decide (b ≤ i) && decide (i < b + c))) := by
  by_cases hb : W ≤ b
  · rw [clearBits_of_begin_ge val c hb]
    by_cases h1 : b ≤ i
    · have : val.testBit i = false := testBit_false_of_ge hval (by omega)
      simp [this]
    · simp [h1]
  · rw [ClearBits, if_neg hb, if_pos hc]
    simp only [Nat.testBit_and, Nat.testBit_xor, Nat.testBit_two_pow_sub_one,
      rangeMask_testBit]
    rcases Nat.lt_or_ge i W with h3 | h3
    · by_cases h1 : b ≤ i <;> by_cases h2 : i < b + c <;> simp [h1, h2, h3]
    · simp [testBit_false_of_ge hval h3]

lemma clearBits_tail_testBit {W val b : Nat} (hval : val < 2 ^ W) (hb : b < W)
    (i : Nat) :
    (ClearBits W val b (W - b)).testBit i =
      (val.testBit i && !(decide (b ≤ i) && decide (i < W))) := by
  rcases Nat.eq_zero_or_pos b with rfl | hpos
  · rw [clearBits_of_count_ge val hb (by omega)]
    rcases Nat.lt_or_ge i W with h3 | h3
    · simp [h3]
    · simp [testBit_false_of_ge hval h3]
  · rw [clearBits_testBit hval (by omega) i]
    have hbw : b + (W - b) = W := by omega
    rw [hbw]

lemma setBits_of_begin_ge {W b : Nat} (val bits c : Nat) (h : W ≤ b) :
    SetBits W val bits b c = val := by
  simp [SetBits, h]

lemma setBits_testBit {W val bits b c : Nat} (hval : val < 2 ^ W) (hb : b < W)
    (i : Nat) :
    (SetBits W val bits b c).testBit i =
      if b ≤ i ∧ i < min (b + c) W then bits.testBit (i - b)
      else val.testBit i := by
  rw [SetBits, if_neg (Nat.not_le.2 hb)]
  rcases Nat.lt_or_ge i W with h3 | h3
  · by_cases hfit : c < W ∧ b + c ≤ W
    · rw [if_pos hfit]
      have hmin : min (b + c) W = b + c := Nat.min_eq_left hfit.2
      rw [hmin]
      simp only [Nat.testBit_or, Nat.testBit_and, Nat.testBit_shiftLeft,
        Nat.testBit_mod_two_pow, rangeMask_testBit, ge_iff_le,
        clearBits_testBit hval hfit.1 i]
      by_cases h1 : b ≤ i <;> by_cases h2 : i < b + c <;>
        simp [h1, h2, h3, show i - b < W by omega]
    · rw [if_neg hfit]
      have hmin : min (b + c) W = W := by omega
      rw [hmin]
      simp only [Nat.testBit_or, Nat.testBit_and, Nat.testBit_shiftLeft,
        Nat.testBit_mod_two_pow, onesMask_testBit, ge_iff_le,
        clearBits_tail_testBit hval hb i]
      by_cases h1 : b ≤ i <;>
        simp [h1, h3, show i - b < W by omega]
  · have hV : val.testBit i = false := testBit_false_of_ge hval h3
    have hcond : ¬(b ≤ i ∧ i < min (b + c) W) := by omega
    rw [if_neg hcond]
    by_cases hfit : c < W ∧ b + c ≤ W
    · rw [if_pos hfit]
      simp only [Nat.testBit_or, Nat.testBit_and, rangeMask_testBit,
        clearBits_testBit hval hfit.1 i, hV]
      simp [show ¬(i < W) by omega]
    · rw [if_neg hfit]
      simp only [Nat.testBit_or, Nat.testBit_and, onesMask_testBit,
        clearBits_tail_testBit hval hb i, hV]
      simp [show ¬(i < W) by omega]

/-! ### Claim C2 -/

/-- C2: for a `W`-bit integral value, `SetBits(value, bits, begin, count)` is
unchanged when `begin ≥ W`; when `count < W` and `begin + count ≤ W` the bits
in `[begin, begin + count)` are replaced by the low `count` bits of `bits`
and all other bits are unchanged; when the range does not fit
(`count ≥ W` or `begin + count > W`) only bits `begin` through `W - 1` are
overwritten with the corresponding low bits of `bits`; and the defaulted
`count` equals the bit width `WB` of the type of `bits`. -/
theorem C2_setBits_spec (W val bits b c i WB : Nat) (hval : val < 2 ^ W) :
    (W ≤ b → SetBits W val bits b c = val) ∧
    (b < W → c < W → b + c ≤ W →
      (SetBits W val bits b c).testBit i =
        if b ≤ i ∧ i < b + c then bits.testBit (i - b) else val.testBit i) ∧
    (b < W → (W ≤ c ∨ W < b + c) →
      (SetBits W val bits b c).testBit i =
        if b ≤ i ∧ i < W then bits.testBit (i - b) else val.testBit i) ∧
    SetBitsDefault W WB val bits b = SetBits W val bits b WB := by
  refine ⟨fun h => setBits_of_begin_ge val bits c h, fun hb hc hbc => ?_,
    fun hb hrange => ?_, rfl⟩
  · rw [setBits_testBit hval hb i, Nat.min_eq_left hbc]
  · rw [setBits_testBit hval hb i, Nat.min_eq_right (by omega)]

/-- Witness for C2 at `W = 32`, `value = 0x12345678`, `bits = 0xFFFF`,
`begin = 8`, `count = 16`, bit `10`. -/
theorem C2_setBits_spec_witness :
    ((0x12345678 : Nat) < 2 ^ 32) ∧
    (SetBits 32 0x12345678 0xFFFF 8 16).testBit 10 =
      (if 8 ≤ 10 ∧ 10 < 8 + 16 then (0xFFFF : Nat).testBit (10 - 8)
       else (0x12345678 : Nat).testBit 10) :=
  ⟨by decide,
    (C2_setBits_spec 32 0x12345678 0xFFFF 8 16 10 16 (by decide)).2.1
      (by decide) (by decide) (by decide)⟩

/-! ### Claim C3 -/

/-- C3: for every `W`-bit integral value and every `begin`, `count` with
`begin + count ≤ W`, `SetBits(value, GetBits(value, begin, count), begin,
count)` leaves the value unchanged, including `begin = 0`, `count = W`. -/
theorem C3_get_set_roundtrip (W val b c : Nat) (hval : val < 2 ^ W)
    (h : b + c ≤ W) :
    SetBits W val (GetBits W val b c) b c = val := by
  rcases Nat.lt_or_ge b W with hb | hb
  · apply Nat.eq_of_testBit_eq
    intro i
    rw [setBits_testBit hval hb i]
    by_cases hcond : b ≤ i ∧ i < min (b + c) W
    · rw [if_pos hcond]
      rcases Nat.lt_or_ge c W with hc | hc
      · rw [getBits_eq_mod hval hb hc]
        simp only [Nat.testBit_mod_two_pow, Nat.testBit_shiftRight]
        simp [show i - b < c by omega, show b + (i - b) = i by omega]
      · have hb0 : b = 0 := by omega
        rw [getBits_of_count_ge val hb hc]
        subst hb0
        simp
    · rw [if_neg hcond]
  · simp [SetBits, hb]

/-- Witness for C3 at `W = 32`, `value = 0x12345678`, `begin = 8`,
`count = 16`. -/
theorem C3_get_set_roundtrip_witness :
    ((0x12345678 : Nat) < 2 ^ 32 ∧ 8 + 16 ≤ 32) ∧
    SetBits 32 0x12345678 (GetBits 32 0x12345678 8 16) 8 16 = 0x12345678 :=
  ⟨⟨by decide, by decide⟩,
    C3_get_set_roundtrip 32 0x12345678 8 16 (by decide) (by decide)⟩

/-! ### Claim C7 -/

/-- C7: out-of-range bit addressing never faults: for a `W`-bit integral
value, `IsBitSet(value, idx)` is `false` for `idx ≥ W`; `SetBit` and
`ClearBit` with `idx ≥ W` leave the value unchanged; and `ClearBits`,
`SetBits` and `FillBits` called with `begin ≥ W` leave the value
unchanged. -/
theorem C7_out_of_range_safe (W val bits idx b c : Nat) (hidx : W ≤ idx)
    (hb : W ≤ b) :
    IsBitSet W val idx = false ∧
    SetBit W val idx = val ∧
    ClearBit W val idx = val ∧
    ClearBits W val b c = val ∧
    SetBits W val bits b c = val ∧
    FillBits W val b c = val := by
  refine ⟨?_, ?_, ?_, ?_, ?_, ?_⟩ <;>
    simp [IsBitSet, SetBit, ClearBit, ClearBits, SetBits, FillBits,
      show ¬(idx < W) by omega, hb]

/-- Witness for C7 at `W = 8`, `value = 0xAB`, `idx = 9`, `begin = 8`,
`count = 4`, `bits = 3`. -/
theorem C7_out_of_range_safe_witness :
    ((8 : Nat) ≤ 9 ∧ (8 : Nat) ≤ 8) ∧
    (IsBitSet 8 0xAB 9 = false ∧
      SetBit 8 0xAB 9 = 0xAB ∧
      ClearBit 8 0xAB 9 = 0xAB ∧
      ClearBits 8 0xAB 8 4 = 0xAB ∧
      SetBits 8 0xAB 3 8 4 = 0xAB ∧
      FillBits 8 0xAB 8 4 = 0xAB) :=
  ⟨⟨by decide, le_rfl⟩,
    C7_out_of_range_safe 8 0xAB 3 9 8 4 (by decide) le_rfl⟩

/-! ### Claim C8 -/

/-- C8: under the static precondition `WR ≥ 2 * WB`, `CombineBits` of two
`WB`-bit values equals `high` shifted left by `WB` bits plus `low` (no
wrap-around), so `low` occupies the low half (`result mod 2 ^ WB = low`) and
`high` the high half (`result >> WB = high`); `CombineBytes`,
`CombineWords` and `CombineDwords` are the byte/word/dword specializations,
and `CombineBits<uint32>(0x1234, 0x5678) = 0x12345678`. -/
theorem C8_combineBits_spec (WR WB high low : Nat) (hh : high < 2 ^ WB)
    (hl : low < 2 ^ WB) (hW : 2 * WB ≤ WR) :
    CombineBits WR WB high low = (high <<< WB) + low ∧
    CombineBits WR WB high low >>> WB = high ∧
    CombineBits WR WB high low % 2 ^ WB = low ∧
    CombineBytes = CombineBits 16 8 ∧
    CombineWords = CombineBits 32 16 ∧
    CombineDwords = CombineBits 64 32 ∧
    CombineWords 0x1234 0x5678 = 0x12345678 := by
  have key : (high <<< WB) + low < 2 ^ WR := by
    rw [Nat.shiftLeft_eq]
    calc high * 2 ^ WB + low < high * 2 ^ WB + 2 ^ WB := by omega
      _ = (high + 1) * 2 ^ WB := by ring
      _ ≤ 2 ^ WB * 2 ^ WB := Nat.mul_le_mul_right _ hh
      _ = 2 ^ (2 * WB) := by rw [two_mul, pow_add]
      _ ≤ 2 ^ WR := Nat.pow_le_pow_right (by norm_num) hW
  have main : CombineBits WR WB high low = (high <<< WB) + low := by
    rw [CombineBits, Nat.mod_eq_of_lt key]
  refine ⟨main, ?_, ?_, rfl, rfl, rfl, ?_⟩
  · rw [main, Nat.shiftLeft_eq, Nat.shiftRight_eq_div_pow, Nat.add_comm,
      Nat.add_mul_div_right _ _ (Nat.two_pow_pos WB), Nat.div_eq_of_lt hl,
      Nat.zero_add]
  · rw [main, Nat.shiftLeft_eq, Nat.add_comm, Nat.add_mul_mod_self_right,
      Nat.mod_eq_of_lt hl]
  · rw [CombineWords, CombineBits, Nat.shiftLeft_eq]
    norm_num

/-- Witness for C8 at `high = 0x1234`, `low = 0x5678`, `WR = 32`,
`WB = 16`. -/
theorem C8_combineBits_spec_witness :
    ((0x1234 : Nat) < 2 ^ 16 ∧ (0x5678 : Nat) < 2 ^ 16 ∧ 2 * 16 ≤ 32) ∧
    CombineBits 32 16 0x1234 0x5678 >>> 16 = 0x1234 ∧
    CombineBits 32 16 0x1234 0x5678 % 2 ^ 16 = 0x5678 :=
  ⟨⟨by decide, by decide, by decide⟩,
    (C8_combineBits_spec 32 16 0x1234 0x5678 (by decide) (by decide)
      (by decide)).2.1,
    (C8_combineBits_spec 32 16 0x1234 0x5678 (by decide) (by decide)
      (by decide)).2.2.1⟩

/-! ### ByteCodec helper lemmas -/

lemma leBytes_length (n val : Nat) : (leBytes n val).length = n := by
  simp [leBytes]

lemma leBytes_take {s n : Nat} (val : Nat) (h : s ≤ n) :
    (leBytes n val).take s = leBytes s val := by
  simp [leBytes, ← List.map_take, List.take_range, Nat.min_eq_left h]

lemma reverse_drop_length_sub (l : List Nat) (s : Nat) :
    l.reverse.drop (l.length - s) = (l.take s).reverse := by
  have h := List.rtake_eq_reverse_take_reverse (l := l.reverse) (n := s)
  rw [List.rtake, List.length_reverse, List.reverse_reverse] at h
  exact h

lemma leVal_replicate_zero (k : Nat) : leVal (List.replicate k 0) = 0 := by
  induction k with
  | zero => rfl
  | succ k ih =>
    simp only [List.replicate_succ, leVal, List.foldr_cons] at *
    omega

lemma writeBytes_eq {rep dst : List Nat} (swapped : Bool)
    (h : 1 < rep.length) :
    WriteBytes rep dst swapped =
      ((if swapped then (rep.take (min rep.length dst.length)).reverse
        else rep.take (min rep.length dst.length)) ++
        dst.drop (min rep.length dst.length),
       decide (rep.length ≤ dst.length)) := by
  have hmn : min rep.length dst.length ≤ rep.length := Nat.min_le_left _ _
  cases swapped with
  | false =>
    rw [WriteBytes.eq_def, if_pos h]
    simp only [Bool.false_eq_true, if_false, copyInto, List.length_take,
      Nat.min_eq_left hmn]
  | true =>
    rw [WriteBytes.eq_def, if_pos h]
    simp only [if_true, copyInto, reverse_drop_length_sub,
      List.length_reverse, List.length_take, Nat.min_eq_left hmn]

lemma readBytes_eq {oldRep src : List Nat} (swapped : Bool)
    (h : 1 < oldRep.length) :
    ReadBytes oldRep src swapped =
      ((if swapped then
          (List.replicate (oldRep.length - min oldRep.length src.length) 0 ++
            src.take (min oldRep.length src.length)).reverse
        else src.take (min oldRep.length src.length) ++
          List.replicate (oldRep.length - min oldRep.length src.length) 0),
       decide (oldRep.length ≤ src.length)) := by
  rw [ReadBytes.eq_def, if_pos h]

/-! ### Claim C4 -/

/-- C4: `WriteBytes(value, dest, order)` returns `true` iff
`dest.length ≥ sizeof(value)`; a partial write still occurs when `dest` is
smaller, and the bytes stored are the least-significant bytes of the value's
native little-endian representation after any endian reversal (the low
`min(sizeof(value), dest.length)` bytes, so truncation drops the
most-significant end); concretely, writing 32-bit `0x12345678` into a 3-byte
buffer with native order returns `false` and leaves the buffer equal to the
value's low 3 bytes in native layout. -/
theorem C4_writeBytes_spec (val n : Nat) (dst : List Nat) (swapped : Bool)
    (hn : 1 ≤ n) :
    (WriteBytes (leBytes n val) dst swapped).2 = decide (n ≤ dst.length) ∧
    (1 < n →
      (WriteBytes (leBytes n val) dst swapped).1 =
        (if swapped then (leBytes (min n dst.length) val).reverse
         else leBytes (min n dst.length) val) ++
          dst.drop (min n dst.length)) ∧
    WriteBytes (leBytes 4 0x12345678) [0, 0, 0] false =
      ([0x78, 0x56, 0x34], false) := by
  have hlen := leBytes_length n val
  refine ⟨?_, fun hgt => ?_, by decide⟩
  · by_cases hgt : 1 < n
    · rw [writeBytes_eq swapped (by rw [hlen]; exact hgt), hlen]
    · have hone : n = 1 := by omega
      subst hone
      have hl1 : (leBytes 1 val).length = 1 := leBytes_length 1 val
      rw [WriteBytes.eq_def, if_neg (by simp [hl1])]
      cases dst with
      | nil => rfl
      | cons d rest => simp
  · have h1 : 1 < (leBytes n val).length := by rw [hlen]; exact hgt
    rw [writeBytes_eq swapped h1, hlen,
      leBytes_take val (Nat.min_le_left n dst.length)]

/-- Witness for C4 at `value = 0x12345678`, `n = 4` bytes, a 3-byte
destination buffer, native order. -/
theorem C4_writeBytes_spec_witness :
    ((1 : Nat) ≤ 4) ∧
    WriteBytes (leBytes 4 0x12345678) [0, 0, 0] false =
      ([0x78, 0x56, 0x34], false) :=
  ⟨by decide,
    (C4_writeBytes_spec 0x12345678 4 [0, 0, 0] false (by decide)).2.2⟩

/-! ### Claim C9 -/

/-- C9: for a multi-byte value and a destination buffer strictly larger than
`sizeof(value)`, `WriteBytes` writes only the first `sizeof(value)` bytes:
every buffer byte at index `≥ sizeof(value)` keeps its previous content, the
buffer length is unchanged, and the call returns `true`. -/
theorem C9_writeBytes_frame (rep dst : List Nat) (swapped : Bool)
    (h1 : 1 < rep.length) (h2 : rep.length < dst.length) :
    (WriteBytes rep dst swapped).1.drop rep.length = dst.drop rep.length ∧
    (WriteBytes rep dst swapped).1.length = dst.length ∧
    (WriteBytes rep dst swapped).2 = true := by
  have hmin : min rep.length dst.length = rep.length :=
    Nat.min_eq_left (by omega)
  rw [writeBytes_eq swapped h1, hmin]
  have hfront :
      (if swapped then (rep.take rep.length).reverse
       else rep.take rep.length).length = rep.length := by
    cases swapped <;> simp
  refine ⟨?_, ?_, by simp; omega⟩
  · show ((if swapped then (rep.take rep.length).reverse
      else rep.take rep.length) ++ dst.drop rep.length).drop rep.length =
        dst.drop rep.length
    exact List.drop_left' hfront
  · show ((if swapped then (rep.take rep.length).reverse
      else rep.take rep.length) ++ dst.drop rep.length).length = dst.length
    simp only [List.length_append, hfront, List.length_drop]
    omega

/-- Witness for C9 at `rep = [1, 2]`, a 3-byte destination, swapped order. -/
theorem C9_writeBytes_frame_witness :
    ((1 : Nat) < 2 ∧ (2 : Nat) < 3) ∧
    ((WriteBytes [1, 2] [9, 9, 9] true).1.drop 2 = [9, 9, 9].drop 2 ∧
      (WriteBytes [1, 2] [9, 9, 9] true).1.length = 3 ∧
      (WriteBytes [1, 2] [9, 9, 9] true).2 = true) :=
  ⟨⟨by decide, by decide⟩,
    C9_writeBytes_frame [1, 2] [9, 9, 9] true (by decide) (by decide)⟩

/-! ### Claim C5 -/

/-- C5: `ReadBytes(src, value, order)` returns `true` iff
`src.length ≥ sizeof(value)`; when `src` is shorter and the order differs
from native, the copied bytes are placed at the tail of a zero-initialized
scratch buffer of size `sizeof(value)` and the whole buffer is reversed, so
reading the 3-byte buffer `{1, 2, 3}` into a 32-bit target with swapped
order returns `false` and yields the bytes `{3, 2, 1, 0}` in native order
(value `0x00010203`, most-significant byte zero-padded). -/
theorem C5_readBytes_spec (oldRep src : List Nat) (swapped : Bool)
    (h1 : 1 ≤ oldRep.length) :
    (ReadBytes oldRep src swapped).2 = decide (oldRep.length ≤ src.length) ∧
    (1 < oldRep.length → src.length ≤ oldRep.length →
      (ReadBytes oldRep src true).1 =
        (List.replicate (oldRep.length - src.length) 0 ++ src).reverse) ∧
    (oldRep.length = 4 →
      ReadBytes oldRep [1, 2, 3] true = ([3, 2, 1, 0], false) ∧
      leVal [3, 2, 1, 0] = 0x00010203) := by
  refine ⟨?_, fun hgt hle => ?_, fun h4 => ⟨?_, by decide⟩⟩
  · by_cases hgt : 1 < oldRep.length
    · rw [readBytes_eq swapped hgt]
    · have hone : oldRep.length = 1 := by omega
      cases src with
      | nil =>
        rw [ReadBytes.eq_def, if_neg (by omega)]
        simp [hone]
      | cons a t =>
        rw [ReadBytes.eq_def, if_neg (by omega)]
        simp [hone]
  · rw [readBytes_eq true hgt]
    have hmin : min oldRep.length src.length = src.length :=
      Nat.min_eq_right hle
    rw [hmin, List.take_length]
    rfl
  · rw [readBytes_eq true (by omega)]
    simp [h4]

/-- Witness for C5 reading the 3-byte buffer `{1, 2, 3}` into a 4-byte
target with swapped order. -/
theorem C5_readBytes_spec_witness :
    ((1 : Nat) ≤ 4) ∧
    (ReadBytes [9, 9, 9, 9] [1, 2, 3] true = ([3, 2, 1, 0], false) ∧
      leVal [3, 2, 1, 0] = 0x00010203) :=
  ⟨by decide,
    (C5_readBytes_spec [9, 9, 9, 9] [1, 2, 3] true (by decide)).2.2 rfl⟩

/-! ### Claim C10 -/

/-- C10: `ReadBytes` is not atomic on error for multi-byte types but is for
single-byte types: with an empty source buffer, a type of size `> 1` gets
`false` and its value overwritten with zero (the all-zero scratch buffer),
while a type of size `1` gets `false` with its value unchanged. -/
theorem C10_readBytes_empty_source (oldRep : List Nat) (swapped : Bool) :
    (1 < oldRep.length →
      ReadBytes oldRep [] swapped = (List.replicate oldRep.length 0, false) ∧
      leVal (ReadBytes oldRep [] swapped).1 = 0) ∧
    (oldRep.length = 1 → ReadBytes oldRep [] swapped = (oldRep, false)) := by
  constructor
  · intro h
    have hmain : ReadBytes oldRep [] swapped =
        (List.replicate oldRep.length 0, false) := by
      rw [readBytes_eq swapped h]
      cases swapped <;>
        simp [show ¬(oldRep.length ≤ 0) by omega]
    exact ⟨hmain, by rw [hmain]; exact leVal_replicate_zero _⟩
  · intro h
    rw [ReadBytes.eq_def, if_neg (by omega)]

/-- Witness for C10 at a 2-byte target (swapped order) and a 1-byte target
(native order), both with an empty source. -/
theorem C10_readBytes_empty_source_witness :
    ReadBytes [9, 9] [] true = ([0, 0], false) ∧
    ReadBytes [7] [] false = ([7], false) :=
  ⟨((C10_readBytes_empty_source [9, 9] true).1 (by decide)).1,
    (C10_readBytes_empty_source [7] false).2 rfl⟩

/-! ### Claim C6 -/

/-- C6: for every arithmetic value (modelled by its byte representation
`rep` through the `std::bit_cast` bijection, which covers integer and
floating-point types alike) and a buffer of length exactly `sizeof(value)`,
`WriteBytes` followed by `ReadBytes` with the same order returns `true`
twice and reconstructs the value exactly, for both native and swapped
order. -/
theorem C6_write_read_roundtrip (rep dst oldRep : List Nat) (swapped : Bool)
    (h1 : 1 ≤ rep.length) (h2 : dst.length = rep.length)
    (h3 : oldRep.length = rep.length) :
    (WriteBytes rep dst swapped).2 = true ∧
    ReadBytes oldRep (WriteBytes rep dst swapped).1 swapped = (rep, true) := by
  rcases Nat.lt_or_ge 1 rep.length with hgt | hle
  · have hmin : min rep.length dst.length = rep.length := by omega
    have hW : WriteBytes rep dst swapped =
        ((if swapped then rep.reverse else rep), true) := by
      rw [writeBytes_eq swapped hgt, hmin, List.take_length, ← h2,
        List.drop_length, List.append_nil]
      simp
    rw [hW]
    refine ⟨rfl, ?_⟩
    cases swapped with
    | false =>
      rw [readBytes_eq false (by omega)]
      simp [h3]
    | true =>
      rw [readBytes_eq true (by omega)]
      have ht : rep.reverse.take rep.length = rep.reverse :=
        List.take_of_length_le (by simp)
      simp [h3, ht]
  · have hone : rep.length = 1 := by omega
    obtain ⟨a, rfl⟩ := List.length_eq_one.mp hone
    obtain ⟨d, rfl⟩ := List.length_eq_one.mp (show dst.length = 1 by omega)
    have hO : oldRep.length = 1 := by omega
    have hW : WriteBytes [a] [d] swapped = ([a], true) := by
      rw [WriteBytes.eq_def, if_neg (by simp)]
      rfl
    rw [hW]
    refine ⟨rfl, ?_⟩
    rw [ReadBytes.eq_def, if_neg (by omega)]

/-- Witness for C6 at `rep = [1, 2, 3, 4]`, a 4-byte buffer, swapped
order. -/
theorem C6_write_read_roundtrip_witness :
    ((1 : Nat) ≤ 4) ∧
    ((WriteBytes [1, 2, 3, 4] [0, 0, 0, 0] true).2 = true ∧
      ReadBytes [9, 9, 9, 9] (WriteBytes [1, 2, 3, 4] [0, 0, 0, 0] true).1
        true = ([1, 2, 3, 4], true)) :=
  ⟨by decide,
    C6_write_read_roundtrip [1, 2, 3, 4] [0, 0, 0, 0] [9, 9, 9, 9] true
      (by decide) rfl rfl⟩

end BitManip
